import Mathlib

/-!
A verification development for the wasm-call-graph analysis engine.

The Rust sources are shallowly embedded as executable Lean functions:

* `src/parsing.rs` — `CallGraphData` and `apply_implicit_calls`.  The Rust
  `HashMap`s are modelled as association lists (`lookupMap` / `updateMap`),
  and the `HashSet`s as lists observed only through membership.
* `src/chains.rs` — `enumerate_call_chains` and its inner `dfs`.  The inner
  recursion is embedded with an explicit fuel parameter bounding the
  recursion depth; running out of fuel yields `none`.  The mutable
  `current_path` / `visited` / `results` state is threaded explicitly:
  `dfs` returns the strings it pushed together with the final state of
  `current_path` and `visited`.
* `src/paths.rs` — `CallNode`, `build_call_tree` (fuel-bounded in the same
  way, threading `visit_counts`), `matches_path_pattern_tree`,
  `filter_by_pattern` and `generate_call_paths`.
-/

/-- Association-list model of a Rust `HashMap`: lookup by key. -/
def lookupMap {κ α : Type} [DecidableEq κ] : List (κ × α) → κ → Option α
  | [], _ => none
  | (k1, v1) :: rest, k => if k1 = k then some v1 else lookupMap rest k

/-- Association-list model of a Rust `HashMap`: insert-or-replace. -/
def updateMap {κ α : Type} [DecidableEq κ] : List (κ × α) → κ → α → List (κ × α)
  | [], k, v => [(k, v)]
  | (k1, v1) :: rest, k, v =>
    if k1 = k then (k1, v) :: rest else (k1, v1) :: updateMap rest k v

/-- Model of `HashSet::insert` on a list observed through membership. -/
def insertSet (x : Nat) (s : List Nat) : List Nat :=
  if x ∈ s then s else x :: s

/-- The `CallGraphData` struct of `src/parsing.rs`. -/
structure CallGraphData where
  function_names : List (Nat × String)
  call_graph : List (Nat × List Nat)
  all_function_indices : List Nat
  imported_functions : List Nat
  exported_functions : List Nat

/-- The display-name sequence the chain `dfs` computes for a path
(`chains.rs` lines 34-42): a missing `function_names` entry falls back to
the literal string `"unknown"`. -/
def pathNames (function_names : List (Nat × String)) (path : List Nat) : List String :=
  path.map (fun i => (lookupMap function_names i).getD "unknown")

/-- The string pushed onto `results` by the chain `dfs` (`chains.rs` lines
57-64): in `leaves_only` mode a path of length above one is compressed to
its two endpoints, otherwise the comma-joined name sequence is emitted. -/
def chainString (function_names : List (Nat × String)) (leaves_only : Bool)
    (path : List Nat) : String :=
  let path_names := pathNames function_names path
  if leaves_only ∧ path_names.length > 1 then
    path_names.headD "" ++ "," ++ path_names.getLastD ""
  else
    String.intercalate "," path_names

/-- The inclusion test of the chain `dfs` (`chains.rs` lines 44-55):
the destination filter passes iff it is empty or the last display name is
in it, and in `leaves_only` mode the current function must be imported. -/
def shouldInclude (imported_functions : List Nat) (dst_filter : List String)
    (leaves_only : Bool) (func_idx : Nat) (path_names : List String) : Bool :=
  let passes_dst :=
    if dst_filter = [] then true
    else
      match path_names.getLast? with
      | some last => decide (last ∈ dst_filter)
      | none => false
  passes_dst && (!leaves_only || decide (func_idx ∈ imported_functions))

/-- The result of one `dfs` call: the strings pushed onto `results`, and
the final contents of `current_path` and `visited`. -/
abbrev DfsState := List String × List Nat × List Nat

/-- The callee loop of the chain `dfs` (`chains.rs` lines 66-83):
visit each callee in edge order, skipping callees already in `visited`,
threading `current_path` and `visited` through and accumulating results. -/
def dfsList (rec : Nat → List Nat → List Nat → Option DfsState) :
    List Nat → List Nat → List Nat → Option DfsState
  | [], path, visited => some ([], path, visited)
  | c :: cs, path, visited =>
    if c ∈ visited then dfsList rec cs path visited
    else
      match rec c path visited with
      | none => none
      | some (rs, p1, v1) =>
        match dfsList rec cs p1 v1 with
        | none => none
        | some (rs2, p2, v2) => some (rs ++ rs2, p2, v2)

/-- The recursive `dfs` of `enumerate_call_chains` (`chains.rs` lines
19-87), with an explicit fuel parameter bounding recursion depth.  One
call pushes `func_idx` on the path, inserts it into `visited`, possibly
emits one string, recurses into unvisited callees in edge order, then pops
the path and removes `func_idx` from `visited`. -/
def dfs (fuel : Nat) (func_idx : Nat) (call_graph : List (Nat × List Nat))
    (function_names : List (Nat × String)) (imported_functions : List Nat)
    (current_path visited : List Nat) (dst_filter : List String)
    (leaves_only : Bool) : Option DfsState :=
  match fuel with
  | 0 => none
  | fuel + 1 =>
    let path1 := current_path ++ [func_idx]
    let visited1 := insertSet func_idx visited
    let path_names := pathNames function_names path1
    let emitted :=
      if shouldInclude imported_functions dst_filter leaves_only func_idx path_names then
        [chainString function_names leaves_only path1]
      else []
    let callees := (lookupMap call_graph func_idx).getD []
    match dfsList
        (fun c p v =>
          dfs fuel c call_graph function_names imported_functions p v dst_filter leaves_only)
        callees path1 visited1 with
    | none => none
    | some (rs, p2, v2) => some (emitted ++ rs, p2.dropLast, v2.erase func_idx)

/-- The per-start loop of `enumerate_call_chains` (`chains.rs` lines
117-131): each start gets a fresh empty path and visited set; the emitted
strings are accumulated in start order. -/
def dfsStarts (fuel : Nat) (starts : List Nat) (call_graph : List (Nat × List Nat))
    (function_names : List (Nat × String)) (imported_functions : List Nat)
    (dst_filter : List String) (leaves_only : Bool) : Option (List String) :=
  match starts with
  | [] => some []
  | s :: rest =>
    match dfs fuel s call_graph function_names imported_functions [] [] dst_filter leaves_only with
    | none => none
    | some (rs, _, _) =>
      match dfsStarts fuel rest call_graph function_names imported_functions dst_filter leaves_only with
      | none => none
      | some rs2 => some (rs ++ rs2)

/-- The `src` filter applied to a candidate start list (`chains.rs` lines
102-115 and `paths.rs` lines 142-155): an empty filter keeps all
candidates, otherwise only ids whose resolved display name is in the
filter are kept. -/
def srcFiltered (function_names : List (Nat × String)) (src_filter : List String)
    (candidate_functions : List Nat) : List Nat :=
  if src_filter = [] then candidate_functions
  else
    candidate_functions.filter (fun i =>
      ((lookupMap function_names i).map (fun name => decide (name ∈ src_filter))).getD false)

/-- Start selection of `enumerate_call_chains` (`chains.rs` lines 89-115):
candidates are the defined function ids, restricted to exported ones in
`leaves_only` mode, then restricted by the `src` filter. -/
def chainStarts (data : CallGraphData) (src_filter : List String) (leaves_only : Bool) :
    List Nat :=
  srcFiltered data.function_names src_filter
    (if leaves_only then
      data.all_function_indices.filter (fun i => decide (i ∈ data.exported_functions))
    else data.all_function_indices)

/-- Embedding of `enumerate_call_chains` from `src/chains.rs`: select start candidates
(`exported` only in `leaves_only` mode), restrict by the `src` filter, run
the DFS from each start, sort the collected strings ascending. -/
def enumerate_call_chains (fuel : Nat) (data : CallGraphData)
    (src_filter dst_filter : List String) (leaves_only : Bool) : Option (List String) :=
  match dfsStarts fuel (chainStarts data src_filter leaves_only) data.call_graph
      data.function_names data.imported_functions dst_filter leaves_only with
  | none => none
  | some results => some (List.insertionSort (fun a b => a ≤ b) results)

/-- The `CallNode` struct of `src/paths.rs`: a display name and an ordered
list of child nodes. -/
inductive CallNode where
  | mk : String → List CallNode → CallNode

/-- Field accessor for the `name` field of `CallNode`. -/
def CallNode.name : CallNode → String
  | .mk n _ => n

/-- Field accessor for the `children` field of `CallNode`. -/
def CallNode.children : CallNode → List CallNode
  | .mk _ cs => cs

mutual

/-- Embedding of `CallNode::to_string` (`paths.rs` lines 22-29): a childless node
renders as its bare name, otherwise as the name followed by the rendered
children in braces, joined by commas. -/
def CallNode.render : CallNode → String
  | .mk n cs => if cs.isEmpty then n else n ++ "\x7b" ++ renderChildren cs ++ "\x7d"

/-- The comma-join of the rendered children of a node (the
`child_strs.join(",")` of `paths.rs` line 26-27). -/
def renderChildren : List CallNode → String
  | [] => ""
  | [c] => CallNode.render c
  | c :: c2 :: cs => CallNode.render c ++ "," ++ renderChildren (c2 :: cs)

end

mutual

/-- Embedding of `CallNode::names_in_order` (`paths.rs` lines 32-38): the pre-order
name sequence of the tree. -/
def CallNode.names_in_order : CallNode → List String
  | .mk n cs => n :: namesInOrderList cs

/-- Concatenation of the pre-order name sequences of a list of children. -/
def namesInOrderList : List CallNode → List String
  | [] => []
  | c :: cs => c.names_in_order ++ namesInOrderList cs

end

mutual

/-- Embedding of `CallNode::filter_by_pattern_inner` (`paths.rs` lines 49-88): returns
the pruned node (or none) together with the pattern remaining after this
subtree.  The node self-matches if its name is an alternative of the head
pattern element; a self-match consumes that element.  If the pattern is
then empty a pruned leaf is returned at once; otherwise the remaining
pattern is threaded through the children in order, and the node is kept
iff it self-matched or some child was kept. -/
def CallNode.filter_by_pattern_inner :
    CallNode → List (List String) → Option CallNode × List (List String)
  | .mk name children, remaining_pattern =>
    match remaining_pattern with
    | [] => (none, [])
    | e :: rest =>
      let matches_current := decide (name ∈ e)
      let pattern_after_self := if matches_current then rest else e :: rest
      if matches_current ∧ pattern_after_self = [] then
        (some (CallNode.mk name []), pattern_after_self)
      else
        let fc := filterChildren children pattern_after_self
        if matches_current || !fc.1.isEmpty then
          (some (CallNode.mk name fc.1), fc.2)
        else
          (none, fc.2)

/-- The child loop of `filter_by_pattern_inner` (`paths.rs` lines 69-78):
filter each child with the pattern left by its elder siblings, collecting
the kept children in order. -/
def filterChildren : List CallNode → List (List String) → List CallNode × List (List String)
  | [], pat => ([], pat)
  | c :: cs, pat =>
    let r1 := c.filter_by_pattern_inner pat
    let r2 := filterChildren cs r1.2
    (match r1.1 with
     | some x => x :: r2.1
     | none => r2.1, r2.2)

end

/-- Embedding of `CallNode::filter_by_pattern` (`paths.rs` lines 44-46). -/
def CallNode.filter_by_pattern (t : CallNode) (pat : List (List String)) : Option CallNode :=
  (t.filter_by_pattern_inner pat).1

/-- Embedding of `matches_path_pattern_tree` (`paths.rs` lines 185-202): an empty
pattern matches vacuously; otherwise scan the pre-order name sequence
with a cursor into the pattern, advancing the cursor whenever the current
name is an alternative of the current element, and succeed iff the cursor
reaches the end of the pattern. -/
def matches_path_pattern_tree (tree : CallNode) (pattern : List (List String)) : Bool :=
  if pattern = [] then true
  else
    let names := tree.names_in_order
    let final_idx := names.foldl
      (fun pattern_idx name =>
        if pattern_idx < pattern.length ∧ name ∈ pattern.getD pattern_idx [] then
          pattern_idx + 1
        else pattern_idx) 0
    decide (final_idx = pattern.length)

/-- Name resolution of `build_call_tree` (`paths.rs` lines 109-112): a
missing `function_names` entry falls back to the synthesized default
name `"func_<id>"`. -/
def treeNodeName (function_names : List (Nat × String)) (func_idx : Nat) : String :=
  (lookupMap function_names func_idx).getD ("func_" ++ toString func_idx)

/-- The child loop of `build_call_tree` (`paths.rs` lines 126-131): build
a subtree for each callee in edge order, threading `visit_counts`. -/
def buildChildren (rec : Nat → List (Nat × Nat) → Option (CallNode × List (Nat × Nat))) :
    List Nat → List (Nat × Nat) → Option (List CallNode × List (Nat × Nat))
  | [], visit_counts => some ([], visit_counts)
  | c :: cs, visit_counts =>
    match rec c visit_counts with
    | none => none
    | some (child, vc1) =>
      match buildChildren rec cs vc1 with
      | none => none
      | some (rest, vc2) => some (child :: rest, vc2)

/-- The recursive `build_call_tree` of `generate_call_paths` (`paths.rs`
lines 103-139), with an explicit fuel parameter bounding recursion depth.
A function whose per-branch visit count has reached 2 becomes a childless
leaf; otherwise its count is incremented, children are built for all
callees in edge order, and the count is decremented again on the way
out. -/
def build_call_tree (fuel : Nat) (func_idx : Nat) (call_graph : List (Nat × List Nat))
    (function_names : List (Nat × String)) (visit_counts : List (Nat × Nat)) :
    Option (CallNode × List (Nat × Nat)) :=
  match fuel with
  | 0 => none
  | fuel + 1 =>
    let name := treeNodeName function_names func_idx
    let count := (lookupMap visit_counts func_idx).getD 0
    if count ≥ 2 then some (CallNode.mk name [], visit_counts)
    else
      let vc1 := updateMap visit_counts func_idx (count + 1)
      let callees := (lookupMap call_graph func_idx).getD []
      match buildChildren
          (fun c vc => build_call_tree fuel c call_graph function_names vc) callees vc1 with
      | none => none
      | some (children, vc2) =>
        let vc3 :=
          match lookupMap vc2 func_idx with
          | some c => updateMap vc2 func_idx (c - 1)
          | none => vc2
        some (CallNode.mk name children, vc3)

/-- The per-start emission of `generate_call_paths` (`paths.rs` lines
166-176): with no pattern, render the raw tree; with a pattern, render
the filtered tree when `matches_path_pattern_tree` succeeds and the
filter returns a node, and emit nothing otherwise. -/
def emitSummary (path_pattern : Option (List (List String))) (tree : CallNode) : List String :=
  match path_pattern with
  | some pattern =>
    if matches_path_pattern_tree tree pattern then
      match tree.filter_by_pattern pattern with
      | some filtered => [filtered.render]
      | none => []
    else []
  | none => [tree.render]

/-- The per-start loop of `generate_call_paths` (`paths.rs` lines
157-177): each start gets a fresh empty `visit_counts` map. -/
def buildStarts (fuel : Nat) (starts : List Nat) (call_graph : List (Nat × List Nat))
    (function_names : List (Nat × String))
    (path_pattern : Option (List (List String))) : Option (List String) :=
  match starts with
  | [] => some []
  | s :: rest =>
    match build_call_tree fuel s call_graph function_names [] with
    | none => none
    | some (tree, _) =>
      match buildStarts fuel rest call_graph function_names path_pattern with
      | none => none
      | some rs => some (emitSummary path_pattern tree ++ rs)

/-- Embedding of `generate_call_paths` from `src/paths.rs`: select starts from
`all_function_indices` restricted by the `src` filter, build a tree per
start, emit its summary, and sort the collected strings ascending. -/
def generate_call_paths (fuel : Nat) (data : CallGraphData) (src_filter : List String)
    (path_pattern : Option (List (List String))) : Option (List String) :=
  match buildStarts fuel (srcFiltered data.function_names src_filter data.all_function_indices)
      data.call_graph data.function_names path_pattern with
  | none => none
  | some results => some (List.insertionSort (fun a b => a ≤ b) results)

/-- The reverse name lookup built by `apply_implicit_calls` (`parsing.rs`
lines 186-189): fold the `function_names` entries into a map from name
to id, later entries overwriting earlier ones. -/
def buildNameToIdx (function_names : List (Nat × String)) : List (String × Nat) :=
  function_names.foldl (fun m p => updateMap m p.2 p.1) []

/-- Embedding of `apply_implicit_calls` from `src/parsing.rs` (lines
184-205): for each (import-name, export-name) pair, resolve both names
through the reverse lookup; when both resolve, append one edge
import-id → export-id to the edge list of the import id; otherwise skip
the pair silently. -/
def apply_implicit_calls (data : CallGraphData)
    (implicit_calls : List (String × String)) : CallGraphData :=
  let name_to_idx := buildNameToIdx data.function_names
  let new_graph := implicit_calls.foldl
    (fun cg p =>
      match lookupMap name_to_idx p.1, lookupMap name_to_idx p.2 with
      | some imp_idx, some exp_idx =>
        updateMap cg imp_idx (((lookupMap cg imp_idx).getD []) ++ [exp_idx])
      | _, _ => cg)
    data.call_graph
  CallGraphData.mk data.function_names new_graph data.all_function_indices
    data.imported_functions data.exported_functions

/-! ### Basic lemmas about the map and set models -/

theorem lookupMap_updateMap_self {κ α : Type} [DecidableEq κ] (m : List (κ × α)) (k : κ) (v : α) :
    lookupMap (updateMap m k v) k = some v := by
  induction m with
  | nil => simp [updateMap, lookupMap]
  | cons p rest ih =>
    obtain ⟨k1, v1⟩ := p
    by_cases h : k1 = k
    · subst h
      simp [updateMap, lookupMap]
    · simp [updateMap, lookupMap, h, ih]

theorem lookupMap_updateMap_ne {κ α : Type} [DecidableEq κ] (m : List (κ × α)) (k k' : κ) (v : α)
    (h : k' ≠ k) : lookupMap (updateMap m k v) k' = lookupMap m k' := by
  have h' : ¬(k = k') := fun hh => h hh.symm
  induction m with
  | nil => simp [updateMap, lookupMap, h']
  | cons p rest ih =>
    obtain ⟨k1, v1⟩ := p
    by_cases h1 : k1 = k
    · subst h1
      simp [updateMap, lookupMap, h']
    · by_cases h2 : k1 = k'
      · subst h2
        simp [updateMap, lookupMap, h1]
      · simp [updateMap, lookupMap, h1, h2, ih]

theorem mem_insertSet {x y : Nat} {s : List Nat} :
    x ∈ insertSet y s ↔ x = y ∨ x ∈ s := by
  unfold insertSet
  by_cases h : y ∈ s
  · simp only [if_pos h]
    constructor
    · exact fun hx => Or.inr hx
    · rintro (rfl | hx)
      · exact h
      · exact hx
  · simp [if_neg h]

theorem insertSet_of_not_mem {y : Nat} {s : List Nat} (h : y ∉ s) :
    insertSet y s = y :: s := by
  simp [insertSet, h]

/-- The count a `visit_counts` map assigns to an id (the
`visit_counts.get(&i).unwrap_or(&0)` view). -/
def cntOf (vc : List (Nat × Nat)) (i : Nat) : Nat :=
  (lookupMap vc i).getD 0

theorem cntOf_updateMap_self (vc : List (Nat × Nat)) (i v : Nat) :
    cntOf (updateMap vc i v) i = v := by
  simp [cntOf, lookupMap_updateMap_self]

theorem cntOf_updateMap_ne (vc : List (Nat × Nat)) (i j v : Nat) (h : j ≠ i) :
    cntOf (updateMap vc i v) j = cntOf vc j := by
  simp [cntOf, lookupMap_updateMap_ne vc i j v h]

/-! ### Restoration of traversal bookkeeping (backtracking) -/

theorem dfsList_restore (rec : Nat → List Nat → List Nat → Option DfsState)
    (hrec : ∀ c p v rs p' v', c ∉ v → rec c p v = some (rs, p', v') → p' = p ∧ v' = v) :
    ∀ cs p v rs p' v', dfsList rec cs p v = some (rs, p', v') → p' = p ∧ v' = v := by
  intro cs
  induction cs with
  | nil =>
    intro p v rs p' v' h
    simp only [dfsList, Option.some.injEq, Prod.mk.injEq] at h
    exact ⟨h.2.1.symm, h.2.2.symm⟩
  | cons c cs ih =>
    intro p v rs p' v' h
    simp only [dfsList] at h
    by_cases hc : c ∈ v
    · rw [if_pos hc] at h
      exact ih p v rs p' v' h
    · rw [if_neg hc] at h
      cases h1 : rec c p v with
      | none => rw [h1] at h; simp at h
      | some r1 =>
        obtain ⟨rs1, p1, v1⟩ := r1
        rw [h1] at h
        simp only at h
        obtain ⟨hp1, hv1⟩ := hrec c p v rs1 p1 v1 hc h1
        cases h2 : dfsList rec cs p1 v1 with
        | none => rw [h2] at h; simp at h
        | some r2 =>
          obtain ⟨rs2, p2, v2⟩ := r2
          rw [h2] at h
          simp only [Option.some.injEq, Prod.mk.injEq] at h
          obtain ⟨hp2, hv2⟩ := ih p1 v1 rs2 p2 v2 h2
          obtain ⟨-, hp, hv⟩ := h
          subst hp; subst hv
          exact ⟨hp2.trans hp1, hv2.trans hv1⟩

theorem dfs_restore (fuel : Nat) :
    ∀ func_idx call_graph function_names imported_functions current_path visited dst_filter
      leaves_only rs p' v',
      func_idx ∉ visited →
      dfs fuel func_idx call_graph function_names imported_functions current_path visited
        dst_filter leaves_only = some (rs, p', v') →
      p' = current_path ∧ v' = visited := by
  induction fuel with
  | zero =>
    intro f cg ns imp path vis dst lo rs p' v' _ h
    simp [dfs] at h
  | succ fuel ih =>
    intro f cg ns imp path vis dst lo rs p' v' hf h
    simp only [dfs] at h
    cases hE : dfsList
        (fun c p v => dfs fuel c cg ns imp p v dst lo)
        ((lookupMap cg f).getD []) (path ++ [f]) (insertSet f vis) with
    | none => rw [hE] at h; simp at h
    | some r =>
      obtain ⟨rs2, p2, v2⟩ := r
      rw [hE] at h
      simp only [Option.some.injEq, Prod.mk.injEq] at h
      have hres := dfsList_restore (fun c p v => dfs fuel c cg ns imp p v dst lo)
        (fun c p v rs0 p0 v0 hc h0 => ih c cg ns imp p v dst lo rs0 p0 v0 hc h0)
        ((lookupMap cg f).getD []) (path ++ [f]) (insertSet f vis) rs2 p2 v2 hE
      obtain ⟨hp2, hv2⟩ := hres
      obtain ⟨-, hp, hv⟩ := h
      subst hp; subst hv
      constructor
      · rw [hp2, List.dropLast_concat]
      · rw [hv2, insertSet_of_not_mem hf, List.erase_cons_head]

theorem buildChildren_cnt (rec : Nat → List (Nat × Nat) → Option (CallNode × List (Nat × Nat)))
    (hrec : ∀ c vc t vc', rec c vc = some (t, vc') → ∀ j, cntOf vc' j = cntOf vc j) :
    ∀ cs vc ts vc', buildChildren rec cs vc = some (ts, vc') →
      ∀ j, cntOf vc' j = cntOf vc j := by
  intro cs
  induction cs with
  | nil =>
    intro vc ts vc' h j
    simp only [buildChildren, Option.some.injEq, Prod.mk.injEq] at h
    rw [← h.2]
  | cons c cs ih =>
    intro vc ts vc' h j
    simp only [buildChildren] at h
    cases h1 : rec c vc with
    | none => rw [h1] at h; simp at h
    | some r1 =>
      obtain ⟨t1, vc1⟩ := r1
      rw [h1] at h
      simp only at h
      cases h2 : buildChildren rec cs vc1 with
      | none => rw [h2] at h; simp at h
      | some r2 =>
        obtain ⟨ts2, vc2⟩ := r2
        rw [h2] at h
        simp only [Option.some.injEq, Prod.mk.injEq] at h
        obtain ⟨-, hvc⟩ := h
        subst hvc
        rw [ih vc1 ts2 vc2 h2 j, hrec c vc t1 vc1 h1 j]

theorem build_cnt (fuel : Nat) :
    ∀ func_idx call_graph function_names visit_counts t vc',
      build_call_tree fuel func_idx call_graph function_names visit_counts = some (t, vc') →
      ∀ j, cntOf vc' j = cntOf visit_counts j := by
  induction fuel with
  | zero =>
    intro f cg ns vc t vc' h
    simp [build_call_tree] at h
  | succ fuel ih =>
    intro f cg ns vc t vc' h j
    simp only [build_call_tree] at h
    by_cases hc : (lookupMap vc f).getD 0 ≥ 2
    · rw [if_pos hc] at h
      simp only [Option.some.injEq, Prod.mk.injEq] at h
      rw [← h.2]
    · rw [if_neg hc] at h
      cases hB : buildChildren (fun c vc0 => build_call_tree fuel c cg ns vc0)
          ((lookupMap cg f).getD []) (updateMap vc f ((lookupMap vc f).getD 0 + 1)) with
      | none => rw [hB] at h; simp at h
      | some r =>
        obtain ⟨children, vc2⟩ := r
        rw [hB] at h
        simp only at h
        have hcnt := buildChildren_cnt (fun c vc0 => build_call_tree fuel c cg ns vc0)
          (fun c vc0 t0 vc0' h0 => ih c cg ns vc0 t0 vc0' h0)
          ((lookupMap cg f).getD []) (updateMap vc f ((lookupMap vc f).getD 0 + 1))
          children vc2 hB
        have hvc2f : cntOf vc2 f = (lookupMap vc f).getD 0 + 1 := by
          rw [hcnt f, cntOf_updateMap_self]
        have hlook : lookupMap vc2 f = some ((lookupMap vc f).getD 0 + 1) := by
          cases hl : lookupMap vc2 f with
          | none => simp [cntOf, hl] at hvc2f
          | some x =>
            simp only [cntOf, hl, Option.getD_some] at hvc2f
            rw [hvc2f]
        rw [hlook] at h
        simp only [Option.some.injEq, Prod.mk.injEq] at h
        obtain ⟨-, hvc⟩ := h
        subst hvc
        by_cases hj : j = f
        · subst hj
          rw [cntOf_updateMap_self]
          simp [cntOf]
        · rw [cntOf_updateMap_ne vc2 f j _ hj, hcnt j,
            cntOf_updateMap_ne vc f j _ hj]

/-- C10: each recursive visit restores its traversal bookkeeping before
returning: when a `dfs` call returns, `current_path` and the on-path
`visited` set are exactly as they were at entry (the visited id is popped
and removed), and when a `build_call_tree` call returns, `visit_counts`
holds exactly the counts it held at entry (the increment for the visited
id is undone). -/
theorem c10_backtracking_restores_state :
    (∀ fuel func_idx call_graph function_names imported_functions current_path visited
       dst_filter leaves_only rs p' v',
       func_idx ∉ visited →
       dfs fuel func_idx call_graph function_names imported_functions current_path visited
         dst_filter leaves_only = some (rs, p', v') →
       p' = current_path ∧ v' = visited) ∧
    (∀ fuel func_idx call_graph function_names visit_counts t vc',
       build_call_tree fuel func_idx call_graph function_names visit_counts = some (t, vc') →
       ∀ j, cntOf vc' j = cntOf visit_counts j) :=
  ⟨fun fuel => dfs_restore fuel, fun fuel => build_cnt fuel⟩

/-- Witness for C10 at a concrete input: a `dfs` call entered with path
`[5]` and empty visited set returns them unchanged, and a
`build_call_tree` call entered with visit count 1 for id 3 leaves the
count of id 0 unchanged. -/
theorem c10_backtracking_restores_state_witness :
    (([5] : List Nat) = [5] ∧ ([] : List Nat) = []) ∧
      cntOf [(3, 1), (0, 0)] 0 = cntOf [(3, 1)] 0 :=
  ⟨c10_backtracking_restores_state.1 1 0 [] [] [] [5] [] [] false
      ["unknown,unknown"] [5] [] (by simp) rfl,
    c10_backtracking_restores_state.2 1 0 [] [] [(3, 1)]
      (CallNode.mk "func_0" []) [(3, 1), (0, 0)] rfl 0⟩

/-! ### Soundness of emitted chains: every emitted string comes from a
repeat-free path along call edges -/

/-- Relation stating that `b` is a callee of `a` (ids with no entry are
terminal). -/
def isCallEdge (call_graph : List (Nat × List Nat)) (a b : Nat) : Prop :=
  b ∈ (lookupMap call_graph a).getD []

/-- A chain string is justified by a non-empty, repeat-free path along
call edges that renders to it. -/
def GoodChain (call_graph : List (Nat × List Nat)) (function_names : List (Nat × String))
    (leaves_only : Bool) (r : String) : Prop :=
  ∃ p, p ≠ [] ∧ p.Nodup ∧ List.Chain' (isCallEdge call_graph) p ∧
    r = chainString function_names leaves_only p

theorem dfsList_sound (call_graph : List (Nat × List Nat))
    (function_names : List (Nat × String)) (leaves_only : Bool)
    (rec : Nat → List Nat → List Nat → Option DfsState)
    (hrec : ∀ c p v rs p' v', c ∉ v → p.Nodup → c ∉ p → (∀ x, x ∈ v ↔ x ∈ p) →
      List.Chain' (isCallEdge call_graph) (p ++ [c]) → rec c p v = some (rs, p', v') →
      ∀ r ∈ rs, GoodChain call_graph function_names leaves_only r)
    (hres : ∀ c p v rs p' v', c ∉ v → rec c p v = some (rs, p', v') → p' = p ∧ v' = v) :
    ∀ cs p v rs p' v', p.Nodup → (∀ x, x ∈ v ↔ x ∈ p) →
      (∀ c ∈ cs, List.Chain' (isCallEdge call_graph) (p ++ [c])) →
      dfsList rec cs p v = some (rs, p', v') →
      ∀ r ∈ rs, GoodChain call_graph function_names leaves_only r := by
  intro cs
  induction cs with
  | nil =>
    intro p v rs p' v' _ _ _ h r hr
    simp only [dfsList, Option.some.injEq, Prod.mk.injEq] at h
    rw [← h.1] at hr
    simp at hr
  | cons c cs ih =>
    intro p v rs p' v' hnd hiff hedge h r hr
    simp only [dfsList] at h
    by_cases hc : c ∈ v
    · rw [if_pos hc] at h
      exact ih p v rs p' v' hnd hiff (fun c0 hc0 => hedge c0 (List.mem_cons_of_mem c hc0)) h r hr
    · rw [if_neg hc] at h
      cases h1 : rec c p v with
      | none => rw [h1] at h; simp at h
      | some r1 =>
        obtain ⟨rs1, p1, v1⟩ := r1
        rw [h1] at h
        simp only at h
        cases h2 : dfsList rec cs p1 v1 with
        | none => rw [h2] at h; simp at h
        | some r2 =>
          obtain ⟨rs2, p2, v2⟩ := r2
          rw [h2] at h
          simp only [Option.some.injEq, Prod.mk.injEq] at h
          obtain ⟨hrs, -, -⟩ := h
          have hcp : c ∉ p := fun hcp0 => hc ((hiff c).mpr hcp0)
          obtain ⟨hp1, hv1⟩ := hres c p v rs1 p1 v1 hc h1
          rw [hp1, hv1] at h2
          rw [← hrs] at hr
          rcases List.mem_append.mp hr with hr1 | hr2
          · exact hrec c p v rs1 p1 v1 hc hnd hcp hiff
              (hedge c (List.mem_cons_self c cs)) h1 r hr1
          · exact ih p v rs2 p2 v2 hnd hiff
              (fun c0 hc0 => hedge c0 (List.mem_cons_of_mem c hc0)) h2 r hr2

theorem dfs_sound (fuel : Nat) :
    ∀ func_idx call_graph function_names imported_functions current_path visited dst_filter
      leaves_only rs p' v',
      current_path.Nodup → func_idx ∉ current_path →
      (∀ x, x ∈ visited ↔ x ∈ current_path) →
      List.Chain' (isCallEdge call_graph) (current_path ++ [func_idx]) →
      dfs fuel func_idx call_graph function_names imported_functions current_path visited
        dst_filter leaves_only = some (rs, p', v') →
      ∀ r ∈ rs, GoodChain call_graph function_names leaves_only r := by
  induction fuel with
  | zero =>
    intro f cg ns imp path vis dst lo rs p' v' _ _ _ _ h
    simp [dfs] at h
  | succ fuel ih =>
    intro f cg ns imp path vis dst lo rs p' v' hnd hfp hiff hch h r hr
    simp only [dfs] at h
    cases hE : dfsList (fun c p v => dfs fuel c cg ns imp p v dst lo)
        ((lookupMap cg f).getD []) (path ++ [f]) (insertSet f vis) with
    | none => rw [hE] at h; simp at h
    | some rE =>
      obtain ⟨rs2, p2, v2⟩ := rE
      rw [hE] at h
      simp only [Option.some.injEq, Prod.mk.injEq] at h
      obtain ⟨hrs, -, -⟩ := h
      rw [← hrs] at hr
      have hnd1 : (path ++ [f]).Nodup := by
        refine List.Nodup.append hnd (List.nodup_singleton f) ?_
        intro a ha hb
        simp only [List.mem_singleton] at hb
        exact hfp (hb ▸ ha)
      have hiff1 : ∀ x, x ∈ insertSet f vis ↔ x ∈ path ++ [f] := by
        intro x
        rw [mem_insertSet, List.mem_append, List.mem_singleton]
        constructor
        · rintro (rfl | hx)
          · exact Or.inr rfl
          · exact Or.inl ((hiff x).mp hx)
        · rintro (hx | rfl)
          · exact Or.inr ((hiff x).mpr hx)
          · exact Or.inl rfl
      rcases List.mem_append.mp hr with hr1 | hr2
      · split at hr1
        · simp only [List.mem_singleton] at hr1
          exact ⟨path ++ [f], by simp, hnd1, hch, hr1⟩
        · simp at hr1
      · refine dfsList_sound cg ns lo (fun c p v => dfs fuel c cg ns imp p v dst lo)
          ?_ ?_ ((lookupMap cg f).getD []) (path ++ [f])
          (insertSet f vis) rs2 p2 v2 hnd1 hiff1 ?_ hE r hr2
        · intro c p v rs0 p0 v0 _ hnd0 hcp0 hiff0 hch0 h0 r0 hr0
          exact ih c cg ns imp p v dst lo rs0 p0 v0 hnd0 hcp0 hiff0 hch0 h0 r0 hr0
        · intro c p v rs0 p0 v0 hc h0
          exact dfs_restore fuel c cg ns imp p v dst lo rs0 p0 v0 hc h0
        · intro c hc
          refine List.Chain'.append hch (List.chain'_singleton c) ?_
          intro x hx y hy
          rw [List.getLast?_concat] at hx
          simp only [Option.mem_def, Option.some.injEq] at hx
          simp only [List.head?_cons, Option.mem_def, Option.some.injEq] at hy
          subst hx; subst hy
          exact hc

theorem dfsStarts_sound (fuel : Nat) :
    ∀ starts call_graph function_names imported_functions dst_filter leaves_only rs,
      dfsStarts fuel starts call_graph function_names imported_functions dst_filter leaves_only
        = some rs →
      ∀ r ∈ rs, GoodChain call_graph function_names leaves_only r := by
  intro starts
  induction starts with
  | nil =>
    intro cg ns imp dst lo rs h r hr
    simp only [dfsStarts, Option.some.injEq] at h
    rw [← h] at hr
    simp at hr
  | cons s rest ih =>
    intro cg ns imp dst lo rs h r hr
    simp only [dfsStarts] at h
    cases h1 : dfs fuel s cg ns imp [] [] dst lo with
    | none => rw [h1] at h; simp at h
    | some r1 =>
      obtain ⟨rs1, p1, v1⟩ := r1
      rw [h1] at h
      simp only at h
      cases h2 : dfsStarts fuel rest cg ns imp dst lo with
      | none => rw [h2] at h; simp at h
      | some rs2 =>
        rw [h2] at h
        simp only [Option.some.injEq] at h
        rw [← h] at hr
        rcases List.mem_append.mp hr with hr1 | hr2
        · exact dfs_sound fuel s cg ns imp [] [] dst lo rs1 p1 v1 List.nodup_nil
            (by simp) (by simp) (by simp) h1 r hr1
        · exact ih cg ns imp dst lo rs2 h2 r hr2

/-- C1: every chain emitted by `enumerate_call_chains` — on any graph,
cyclic or not — corresponds to a non-empty path along call edges whose
underlying id sequence contains no repeated id, and the emitted string is
exactly the rendering of that path. -/
theorem c1_no_repeated_id_on_emitted_chains
    (fuel : Nat) (data : CallGraphData) (src_filter dst_filter : List String)
    (leaves_only : Bool) (results : List String) (r : String)
    (h : enumerate_call_chains fuel data src_filter dst_filter leaves_only = some results)
    (hr : r ∈ results) :
    ∃ p, p ≠ [] ∧ p.Nodup ∧ List.Chain' (isCallEdge data.call_graph) p ∧
      r = chainString data.function_names leaves_only p := by
  simp only [enumerate_call_chains] at h
  cases hD : dfsStarts fuel (chainStarts data src_filter leaves_only) data.call_graph
      data.function_names data.imported_functions dst_filter leaves_only with
  | none => rw [hD] at h; simp at h
  | some rs =>
    rw [hD] at h
    simp only [Option.some.injEq] at h
    rw [← h] at hr
    rw [List.mem_insertionSort] at hr
    exact dfsStarts_sound fuel (chainStarts data src_filter leaves_only) data.call_graph
      data.function_names data.imported_functions dst_filter leaves_only rs hD r hr

/-- A one-function module with no name entry, used as a concrete input in
several witnesses. -/
def nonameData : CallGraphData :=
  CallGraphData.mk [] [(0, [])] [0] [] []

/-- Witness for C1 at a concrete input: the single chain emitted from
`nonameData` is justified by a repeat-free edge path. -/
theorem c1_no_repeated_id_on_emitted_chains_witness :
    ∃ p, p ≠ [] ∧ p.Nodup ∧ List.Chain' (isCallEdge nonameData.call_graph) p ∧
      "unknown" = chainString nonameData.function_names false p :=
  c1_no_repeated_id_on_emitted_chains 1 nonameData [] [] false ["unknown"] "unknown"
    rfl (by simp)

/-- C7: the outputs of `enumerate_call_chains` and of
`generate_call_paths` are each sorted lexicographically ascending. -/
theorem c7_outputs_sorted :
    (∀ fuel data src_filter dst_filter leaves_only results,
      enumerate_call_chains fuel data src_filter dst_filter leaves_only = some results →
      List.Sorted (fun a b : String => a ≤ b) results) ∧
    (∀ fuel data src_filter path_pattern results,
      generate_call_paths fuel data src_filter path_pattern = some results →
      List.Sorted (fun a b : String => a ≤ b) results) := by
  constructor
  · intro fuel data src dst lo results h
    simp only [enumerate_call_chains] at h
    cases hD : dfsStarts fuel (chainStarts data src lo) data.call_graph
        data.function_names data.imported_functions dst lo with
    | none => rw [hD] at h; simp at h
    | some rs =>
      rw [hD] at h
      simp only [Option.some.injEq] at h
      rw [← h]
      exact List.sorted_insertionSort (fun a b : String => a ≤ b) rs
  · intro fuel data src pp results h
    simp only [generate_call_paths] at h
    cases hB : buildStarts fuel (srcFiltered data.function_names src data.all_function_indices)
        data.call_graph data.function_names pp with
    | none => rw [hB] at h; simp at h
    | some rs =>
      rw [hB] at h
      simp only [Option.some.injEq] at h
      rw [← h]
      exact List.sorted_insertionSort (fun a b : String => a ≤ b) rs

/-- Witness for C7 at concrete inputs: the concrete outputs of both
analyses on `nonameData` are sorted. -/
theorem c7_outputs_sorted_witness :
    List.Sorted (fun a b : String => a ≤ b) ["unknown"] ∧
      List.Sorted (fun a b : String => a ≤ b) ["func_0"] :=
  ⟨c7_outputs_sorted.1 1 nonameData [] [] false ["unknown"] rfl,
    c7_outputs_sorted.2 1 nonameData [] none ["func_0"] rfl⟩

/-! ### Termination: sufficient fuel for both analyses -/

/-- All function ids mentioned by a `CallGraphData`: the defined ids, the
callers with an edge list, and every callee, without duplicates.  Its
length is the number of distinct function ids of the graph. -/
def graphIds (data : CallGraphData) : List Nat :=
  (data.all_function_indices ++ data.call_graph.map (fun p => p.1) ++
    (data.call_graph.map (fun p => p.2)).flatten).dedup

theorem filter_length_mono {l : List Nat} {p q : Nat → Bool}
    (himp : ∀ a, q a = true → p a = true) :
    (l.filter q).length ≤ (l.filter p).length := by
  induction l with
  | nil => simp
  | cons a l ih =>
    simp only [List.filter_cons]
    by_cases hq : q a = true
    · rw [if_pos hq, if_pos (himp a hq)]
      simpa using ih
    · rw [if_neg hq]
      by_cases hp : p a = true
      · rw [if_pos hp]
        exact Nat.le_succ_of_le ih
      · rw [if_neg hp]
        exact ih

theorem filter_length_lt {l : List Nat} {p q : Nat → Bool}
    (himp : ∀ a, q a = true → p a = true) {x : Nat} (hx : x ∈ l)
    (hpx : p x = true) (hqx : q x = false) :
    (l.filter q).length < (l.filter p).length := by
  induction l with
  | nil => simp at hx
  | cons a l ih =>
    simp only [List.filter_cons]
    rcases List.mem_cons.mp hx with rfl | hx'
    · rw [if_pos hpx, if_neg (by simp [hqx])]
      exact Nat.lt_succ_of_le (filter_length_mono himp)
    · by_cases hq : q a = true
      · rw [if_pos hq, if_pos (himp a hq)]
        simpa using ih hx'
      · rw [if_neg hq]
        by_cases hp : p a = true
        · rw [if_pos hp]
          exact Nat.lt_succ_of_lt (ih hx')
        · rw [if_neg hp]
          exact ih hx'

theorem dfsList_some (U : List Nat) (fuel : Nat)
    (rec : Nat → List Nat → List Nat → Option DfsState)
    (hrec : ∀ c p v, c ∉ v → c ∈ U →
      (U.filter (fun i => decide (i ∉ insertSet c v))).length < fuel →
      (rec c p v).isSome)
    (hres : ∀ c p v rs p' v', c ∉ v → rec c p v = some (rs, p', v') → p' = p ∧ v' = v) :
    ∀ cs p v, (∀ c ∈ cs, c ∈ U) →
      (U.filter (fun i => decide (i ∉ v))).length ≤ fuel →
      (dfsList rec cs p v).isSome := by
  intro cs
  induction cs with
  | nil => intro p v _ _; simp [dfsList]
  | cons c cs ih =>
    intro p v hcs hbound
    simp only [dfsList]
    by_cases hc : c ∈ v
    · rw [if_pos hc]
      exact ih p v (fun c0 hc0 => hcs c0 (List.mem_cons_of_mem c hc0)) hbound
    · rw [if_neg hc]
      have hcU : c ∈ U := hcs c (List.mem_cons_self c cs)
      have hlt : (U.filter (fun i => decide (i ∉ insertSet c v))).length <
          (U.filter (fun i => decide (i ∉ v))).length := by
        refine filter_length_lt ?_ hcU ?_ ?_
        · intro a ha
          simp only [decide_eq_true_eq] at ha ⊢
          intro hav
          exact ha (mem_insertSet.mpr (Or.inr hav))
        · simpa using hc
        · simp [mem_insertSet]
      have h1 := hrec c p v hc hcU (Nat.lt_of_lt_of_le hlt hbound)
      cases hr1 : rec c p v with
      | none => rw [hr1] at h1; simp at h1
      | some r1 =>
        obtain ⟨rs1, p1, v1⟩ := r1
        obtain ⟨hp1, hv1⟩ := hres c p v rs1 p1 v1 hc hr1
        subst hp1; subst hv1
        have h2 := ih p1 v1 (fun c0 hc0 => hcs c0 (List.mem_cons_of_mem c hc0)) hbound
        cases hr2 : dfsList rec cs p1 v1 with
        | none => rw [hr2] at h2; simp at h2
        | some r2 =>
          obtain ⟨rs2, p2, v2⟩ := r2
          simp [hr2]

theorem lookupMap_mem_values {κ α : Type} [DecidableEq κ] (m : List (κ × α)) (k : κ) (v : α)
    (h : lookupMap m k = some v) : v ∈ m.map (fun p => p.2) := by
  induction m with
  | nil => simp [lookupMap] at h
  | cons p rest ih =>
    obtain ⟨k1, v1⟩ := p
    simp only [lookupMap] at h
    by_cases hk : k1 = k
    · rw [if_pos hk] at h
      simp only [Option.some.injEq] at h
      simp [h]
    · rw [if_neg hk] at h
      simp [ih h]

theorem callee_mem_graphIds (data : CallGraphData) (a b : Nat)
    (h : b ∈ (lookupMap data.call_graph a).getD []) : b ∈ graphIds data := by
  rw [graphIds, List.mem_dedup]
  cases hl : lookupMap data.call_graph a with
  | none => rw [hl] at h; simp at h
  | some l =>
    rw [hl] at h
    simp only [Option.getD_some] at h
    have hlv : l ∈ data.call_graph.map (fun p => p.2) := lookupMap_mem_values _ a l hl
    have : b ∈ (data.call_graph.map (fun p => p.2)).flatten :=
      List.mem_flatten.mpr ⟨l, hlv, h⟩
    simp [this]

theorem defined_mem_graphIds (data : CallGraphData) (s : Nat)
    (h : s ∈ data.all_function_indices) : s ∈ graphIds data := by
  rw [graphIds, List.mem_dedup]
  simp [h]

theorem chainStarts_subset (data : CallGraphData) (src_filter : List String)
    (leaves_only : Bool) (s : Nat) (h : s ∈ chainStarts data src_filter leaves_only) :
    s ∈ data.all_function_indices := by
  rw [chainStarts, srcFiltered] at h
  have hcand : ∀ x ∈ (if leaves_only then
      data.all_function_indices.filter (fun i => decide (i ∈ data.exported_functions))
    else data.all_function_indices), x ∈ data.all_function_indices := by
    intro x hx
    by_cases hl : leaves_only
    · rw [if_pos hl] at hx
      exact List.mem_of_mem_filter hx
    · rw [if_neg hl] at hx
      exact hx
  by_cases hs : src_filter = []
  · rw [if_pos hs] at h
    exact hcand s h
  · rw [if_neg hs] at h
    exact hcand s (List.mem_of_mem_filter h)

theorem dfs_some (data : CallGraphData) :
    ∀ fuel func_idx function_names imported_functions current_path visited dst_filter
      leaves_only,
      ((graphIds data).filter (fun i => decide (i ∉ insertSet func_idx visited))).length < fuel →
      (dfs fuel func_idx data.call_graph function_names imported_functions current_path visited
        dst_filter leaves_only).isSome := by
  intro fuel
  induction fuel with
  | zero => intro f ns imp path vis dst lo hb; omega
  | succ fuel ih =>
    intro f ns imp path vis dst lo hb
    simp only [dfs]
    have hlist := dfsList_some (graphIds data) fuel
      (fun c p v => dfs fuel c data.call_graph ns imp p v dst lo)
      (fun c p v _ hcU hbound => ih c ns imp p v dst lo hbound)
      (fun c p v rs p' v' hc h0 => dfs_restore fuel c data.call_graph ns imp p v dst lo
        rs p' v' hc h0)
      ((lookupMap data.call_graph f).getD []) (path ++ [f]) (insertSet f vis)
      (fun c hc => callee_mem_graphIds data f c hc)
      (Nat.lt_succ_iff.mp hb)
    cases hE : dfsList (fun c p v => dfs fuel c data.call_graph ns imp p v dst lo)
        ((lookupMap data.call_graph f).getD []) (path ++ [f]) (insertSet f vis) with
    | none => rw [hE] at hlist; simp at hlist
    | some r =>
      obtain ⟨rs, p2, v2⟩ := r
      simp

theorem dfsStarts_some (data : CallGraphData) (fuel : Nat) :
    ∀ starts function_names imported_functions dst_filter leaves_only,
      (∀ s ∈ starts,
        ((graphIds data).filter (fun i => decide (i ∉ insertSet s []))).length < fuel) →
      (dfsStarts fuel starts data.call_graph function_names imported_functions dst_filter
        leaves_only).isSome := by
  intro starts
  induction starts with
  | nil => intro ns imp dst lo _; simp [dfsStarts]
  | cons s rest ih =>
    intro ns imp dst lo hf
    simp only [dfsStarts]
    have h1 := dfs_some data fuel s ns imp [] [] dst lo (hf s (List.mem_cons_self s rest))
    cases hr1 : dfs fuel s data.call_graph ns imp [] [] dst lo with
    | none => rw [hr1] at h1; simp at h1
    | some r1 =>
      obtain ⟨rs1, p1, v1⟩ := r1
      have h2 := ih ns imp dst lo (fun s0 hs0 => hf s0 (List.mem_cons_of_mem s hs0))
      cases hr2 : dfsStarts fuel rest data.call_graph ns imp dst lo with
      | none => rw [hr2] at h2; simp at h2
      | some rs2 => simp [hr2]

/-- Remaining expansion budget of a branch: each id of the graph may still
be expanded `2 - count` more times on the current branch. -/
def branchWeight (U : List Nat) (vc : List (Nat × Nat)) : Nat :=
  (U.map (fun i => 2 - cntOf vc i)).sum

theorem branchWeight_congr (U : List Nat) (vc1 vc : List (Nat × Nat))
    (h : ∀ j, cntOf vc1 j = cntOf vc j) : branchWeight U vc1 = branchWeight U vc := by
  unfold branchWeight
  congr 1
  exact List.map_congr_left (fun i _ => by rw [h i])

theorem map_sum_le (l : List Nat) (w w' : Nat → Nat)
    (hle : ∀ i ∈ l, w' i ≤ w i) : (l.map w').sum ≤ (l.map w).sum := by
  induction l with
  | nil => simp
  | cons a l ih =>
    simp only [List.map_cons, List.sum_cons]
    exact Nat.add_le_add (hle a (List.mem_cons_self a l))
      (ih (fun i hi => hle i (List.mem_cons_of_mem a hi)))

theorem map_sum_lt (l : List Nat) (w w' : Nat → Nat)
    (hle : ∀ i ∈ l, w' i ≤ w i) (x : Nat) (hx : x ∈ l) (hlt : w' x < w x) :
    (l.map w').sum < (l.map w).sum := by
  induction l with
  | nil => simp at hx
  | cons a l ih =>
    simp only [List.map_cons, List.sum_cons]
    rcases List.mem_cons.mp hx with rfl | hx'
    · have := map_sum_le l w w' (fun i hi => hle i (List.mem_cons_of_mem x hi))
      omega
    · have h1 : w' a ≤ w a := hle a (List.mem_cons_self a l)
      have h2 := ih (fun i hi => hle i (List.mem_cons_of_mem a hi)) hx'
      omega

theorem buildChildren_some (U : List Nat) (fuel : Nat)
    (rec : Nat → List (Nat × Nat) → Option (CallNode × List (Nat × Nat)))
    (hrec : ∀ c vc, branchWeight U vc < fuel → (rec c vc).isSome)
    (hcnt : ∀ c vc t vc', rec c vc = some (t, vc') → ∀ j, cntOf vc' j = cntOf vc j) :
    ∀ cs vc, branchWeight U vc < fuel → (buildChildren rec cs vc).isSome := by
  intro cs
  induction cs with
  | nil => intro vc _; simp [buildChildren]
  | cons c cs ih =>
    intro vc hw
    simp only [buildChildren]
    have h1 := hrec c vc hw
    cases hr1 : rec c vc with
    | none => rw [hr1] at h1; simp at h1
    | some r1 =>
      obtain ⟨t1, vc1⟩ := r1
      have hw1 : branchWeight U vc1 < fuel := by
        rw [branchWeight_congr U vc1 vc (hcnt c vc t1 vc1 hr1)]
        exact hw
      have h2 := ih vc1 hw1
      cases hr2 : buildChildren rec cs vc1 with
      | none => rw [hr2] at h2; simp at h2
      | some r2 =>
        obtain ⟨ts2, vc2⟩ := r2
        simp [hr2]

theorem lookupMap_mem_keys {κ α : Type} [DecidableEq κ] (m : List (κ × α)) (k : κ) (v : α)
    (h : lookupMap m k = some v) : k ∈ m.map (fun p => p.1) := by
  induction m with
  | nil => simp [lookupMap] at h
  | cons p rest ih =>
    obtain ⟨k1, v1⟩ := p
    simp only [lookupMap] at h
    by_cases hk : k1 = k
    · simp [hk]
    · rw [if_neg hk] at h
      simp [ih h]

theorem caller_mem_graphIds (data : CallGraphData) (a : Nat) (l : List Nat)
    (h : lookupMap data.call_graph a = some l) : a ∈ graphIds data := by
  rw [graphIds, List.mem_dedup]
  have := lookupMap_mem_keys _ a l h
  simp [this]

theorem build_some (data : CallGraphData) :
    ∀ fuel func_idx function_names visit_counts,
      branchWeight (graphIds data) visit_counts < fuel →
      (build_call_tree fuel func_idx data.call_graph function_names visit_counts).isSome := by
  intro fuel
  induction fuel with
  | zero => intro f ns vc hb; omega
  | succ fuel ih =>
    intro f ns vc hb
    simp only [build_call_tree]
    by_cases hc : (lookupMap vc f).getD 0 ≥ 2
    · rw [if_pos hc]
      simp
    · rw [if_neg hc]
      cases hl : lookupMap data.call_graph f with
      | none => simp [buildChildren]
      | some l =>
        have hfU : f ∈ graphIds data := caller_mem_graphIds data f l hl
        have hwlt : branchWeight (graphIds data)
            (updateMap vc f ((lookupMap vc f).getD 0 + 1)) < branchWeight (graphIds data) vc := by
          refine map_sum_lt (graphIds data) (fun i => 2 - cntOf vc i)
            (fun i => 2 - cntOf (updateMap vc f ((lookupMap vc f).getD 0 + 1)) i) ?_ f hfU ?_
          · intro i _
            dsimp only
            by_cases hi : i = f
            · subst hi
              rw [cntOf_updateMap_self]
              have : cntOf vc i = (lookupMap vc i).getD 0 := rfl
              omega
            · rw [cntOf_updateMap_ne vc f i _ hi]
          · dsimp only
            rw [cntOf_updateMap_self]
            have h0 : cntOf vc f = (lookupMap vc f).getD 0 := rfl
            omega
        have hwfuel : branchWeight (graphIds data)
            (updateMap vc f ((lookupMap vc f).getD 0 + 1)) < fuel := by omega
        have hBC := buildChildren_some (graphIds data) fuel
          (fun c vc0 => build_call_tree fuel c data.call_graph ns vc0)
          (fun c vc0 hw0 => ih c ns vc0 hw0)
          (fun c vc0 t0 vc0' h0 => build_cnt fuel c data.call_graph ns vc0 t0 vc0' h0)
          l (updateMap vc f ((lookupMap vc f).getD 0 + 1)) hwfuel
        cases hB : buildChildren (fun c vc0 => build_call_tree fuel c data.call_graph ns vc0)
            l (updateMap vc f ((lookupMap vc f).getD 0 + 1)) with
        | none => rw [hB] at hBC; simp at hBC
        | some r =>
          obtain ⟨children, vc2⟩ := r
          simp [hB]

theorem branchWeight_nil_counts (U : List Nat) : branchWeight U [] = 2 * U.length := by
  induction U with
  | nil => simp [branchWeight]
  | cons a U ih =>
    simp only [branchWeight, List.map_cons, List.sum_cons, List.length_cons] at ih ⊢
    have : cntOf [] a = 0 := rfl
    rw [this]
    omega

theorem buildStarts_some (data : CallGraphData) (fuel : Nat)
    (hfuel : 2 * (graphIds data).length < fuel) :
    ∀ starts function_names path_pattern,
      (buildStarts fuel starts data.call_graph function_names path_pattern).isSome := by
  intro starts
  induction starts with
  | nil => intro ns pp; simp [buildStarts]
  | cons s rest ih =>
    intro ns pp
    simp only [buildStarts]
    have h1 := build_some data fuel s ns []
      (by rw [branchWeight_nil_counts]; exact hfuel)
    cases hr1 : build_call_tree fuel s data.call_graph ns [] with
    | none => rw [hr1] at h1; simp at h1
    | some r1 =>
      obtain ⟨t1, vc1⟩ := r1
      have h2 := ih ns pp
      cases hr2 : buildStarts fuel rest data.call_graph ns pp with
      | none => rw [hr2] at h2; simp at h2
      | some rs2 => simp [hr2]

/-- C2: on every finite call graph, cyclic or not, both analyses
terminate with finite output.  In the fuel embedding: the chain
enumerator succeeds with recursion-depth budget equal to the number of
distinct function ids (the on-path set forbids repeats on a branch), and
the tree builder succeeds with budget `2 * numIds + 1` (each id is
expanded at most twice per branch, a third occurrence is cut off). -/
theorem c2_both_analyses_terminate (data : CallGraphData)
    (src_filter dst_filter : List String) (leaves_only : Bool)
    (path_pattern : Option (List (List String))) :
    (enumerate_call_chains (graphIds data).length data src_filter dst_filter
      leaves_only).isSome ∧
    (generate_call_paths (2 * (graphIds data).length + 1) data src_filter
      path_pattern).isSome := by
  constructor
  · simp only [enumerate_call_chains]
    have hS := dfsStarts_some data (graphIds data).length
      (chainStarts data src_filter leaves_only) data.function_names data.imported_functions
      dst_filter leaves_only ?_
    · cases hD : dfsStarts (graphIds data).length (chainStarts data src_filter leaves_only)
          data.call_graph data.function_names data.imported_functions dst_filter leaves_only with
      | none => rw [hD] at hS; simp at hS
      | some rs => simp
    · intro s hs
      have hsU : s ∈ graphIds data :=
        defined_mem_graphIds data s (chainStarts_subset data src_filter leaves_only s hs)
      have hfull : (graphIds data).filter (fun i => decide (i ∉ ([] : List Nat)))
          = graphIds data := by
        apply List.filter_eq_self.mpr
        intro a _
        simp
      have hlt : ((graphIds data).filter (fun i => decide (i ∉ insertSet s []))).length <
          ((graphIds data).filter (fun i => decide (i ∉ ([] : List Nat)))).length := by
        refine filter_length_lt ?_ hsU ?_ ?_
        · intro a ha
          simp
        · simp
        · simp [insertSet]
      rw [hfull] at hlt
      exact hlt
  · simp only [generate_call_paths]
    have hS := buildStarts_some data (2 * (graphIds data).length + 1) (by omega)
      (srcFiltered data.function_names src_filter data.all_function_indices)
      data.function_names path_pattern
    cases hB : buildStarts (2 * (graphIds data).length + 1)
        (srcFiltered data.function_names src_filter data.all_function_indices)
        data.call_graph data.function_names path_pattern with
    | none => rw [hB] at hS; simp at hS
    | some rs => simp

/-! ### The greedy pattern scan, shared by matcher and filter -/

/-- One step of the greedy pattern scan: a name consumes the head pattern
element iff it is one of its alternatives. -/
def consumeStep (pat : List (List String)) (name : String) : List (List String) :=
  match pat with
  | [] => []
  | e :: rest => if name ∈ e then rest else e :: rest

/-- The pattern remaining after greedily scanning a name sequence. -/
def consumePattern (pat : List (List String)) (names : List String) : List (List String) :=
  names.foldl consumeStep pat

theorem consumePattern_nil (names : List String) : consumePattern [] names = [] := by
  induction names with
  | nil => rfl
  | cons n ns ih =>
    simp only [consumePattern, List.foldl_cons]
    exact ih

theorem consumePattern_append (pat : List (List String)) (ns1 ns2 : List String) :
    consumePattern pat (ns1 ++ ns2) = consumePattern (consumePattern pat ns1) ns2 := by
  simp [consumePattern, List.foldl_append]

theorem consumeStep_suffix (pat : List (List String)) (name : String) :
    consumeStep pat name <:+ pat := by
  match pat with
  | [] => exact List.nil_suffix
  | e :: rest =>
    simp only [consumeStep]
    by_cases h : name ∈ e
    · rw [if_pos h]
      exact ⟨[e], rfl⟩
    · rw [if_neg h]

theorem consumePattern_suffix (pat : List (List String)) (names : List String) :
    consumePattern pat names <:+ pat := by
  induction names generalizing pat with
  | nil => exact List.suffix_refl pat
  | cons n ns ih =>
    simp only [consumePattern, List.foldl_cons]
    exact (ih (consumeStep pat n)).trans (consumeStep_suffix pat n)

theorem consumePattern_length_le (pat : List (List String)) (names : List String) :
    (consumePattern pat names).length ≤ pat.length :=
  (consumePattern_suffix pat names).length_le

/-- The index-cursor scan of `matches_path_pattern_tree` computes exactly
the drop point of the greedy scan. -/
theorem foldIdx_consume (pattern : List (List String)) :
    ∀ names i, i ≤ pattern.length →
      pattern.drop (names.foldl
        (fun pattern_idx name =>
          if pattern_idx < pattern.length ∧ name ∈ pattern.getD pattern_idx [] then
            pattern_idx + 1
          else pattern_idx) i)
        = consumePattern (pattern.drop i) names ∧
      names.foldl
        (fun pattern_idx name =>
          if pattern_idx < pattern.length ∧ name ∈ pattern.getD pattern_idx [] then
            pattern_idx + 1
          else pattern_idx) i ≤ pattern.length := by
  intro names
  induction names with
  | nil =>
    intro i hi
    exact ⟨rfl, hi⟩
  | cons name ns ih =>
    intro i hi
    simp only [List.foldl_cons, consumePattern]
    by_cases hc : i < pattern.length ∧ name ∈ pattern.getD i []
    · rw [if_pos hc]
      have hdrop : pattern.drop i = pattern[i] :: pattern.drop (i + 1) :=
        List.drop_eq_getElem_cons hc.1
      have hget : pattern.getD i [] = pattern[i] := List.getD_eq_getElem pattern [] hc.1
      have hmem : name ∈ pattern[i] := hget ▸ hc.2
      have hstep : consumeStep (pattern.drop i) name = pattern.drop (i + 1) := by
        rw [hdrop]
        simp only [consumeStep]
        rw [if_pos hmem]
      have hih := ih (i + 1) hc.1
      rw [hstep]
      exact hih
    · rw [if_neg hc]
      have hih := ih i hi
      by_cases hlt : i < pattern.length
      · have hnm : name ∉ pattern.getD i [] := fun hmm => hc ⟨hlt, hmm⟩
        have hdrop : pattern.drop i = pattern[i] :: pattern.drop (i + 1) :=
          List.drop_eq_getElem_cons hlt
        have hget : pattern.getD i [] = pattern[i] := List.getD_eq_getElem pattern [] hlt
        have hstep : consumeStep (pattern.drop i) name = pattern.drop i := by
          rw [hdrop]
          simp only [consumeStep]
          rw [if_neg (hget ▸ hnm)]
        rw [hstep]
        exact hih
      · have hge : pattern.length ≤ i := Nat.le_of_not_lt hlt
        have hdrop : pattern.drop i = [] := List.drop_eq_nil_iff.mpr hge
        have hstep : consumeStep (pattern.drop i) name = pattern.drop i := by
          rw [hdrop]
          rfl
        rw [hstep]
        exact hih

theorem matches_iff_consume (tree : CallNode) (pattern : List (List String)) :
    matches_path_pattern_tree tree pattern = true ↔
      consumePattern pattern tree.names_in_order = [] := by
  by_cases hp : pattern = []
  · subst hp
    simp [matches_path_pattern_tree, consumePattern_nil]
  · simp only [matches_path_pattern_tree, if_neg hp, decide_eq_true_eq]
    have h := foldIdx_consume pattern tree.names_in_order 0 (Nat.zero_le _)
    rw [List.drop_zero] at h
    constructor
    · intro hfin
      rw [← h.1, hfin]
      exact List.drop_eq_nil_iff.mpr (Nat.le_refl _)
    · intro hcons
      rw [← h.1] at hcons
      have := List.drop_eq_nil_iff.mp hcons
      omega

mutual

theorem callNode_ind {P : CallNode → Prop} {Q : List CallNode → Prop}
    (h1 : ∀ n cs, Q cs → P (CallNode.mk n cs)) (h2 : Q [])
    (h3 : ∀ c cs, P c → Q cs → Q (c :: cs)) : ∀ t, P t
  | CallNode.mk n cs => h1 n cs (callNodeList_ind h1 h2 h3 cs)

theorem callNodeList_ind {P : CallNode → Prop} {Q : List CallNode → Prop}
    (h1 : ∀ n cs, Q cs → P (CallNode.mk n cs)) (h2 : Q [])
    (h3 : ∀ c cs, P c → Q cs → Q (c :: cs)) : ∀ cs, Q cs
  | [] => h2
  | c :: cs => h3 c cs (callNode_ind h1 h2 h3 c) (callNodeList_ind h1 h2 h3 cs)

end

theorem consumePattern_cons (pat : List (List String)) (n : String) (ns : List String) :
    consumePattern pat (n :: ns) = consumePattern (consumeStep pat n) ns := rfl

theorem filterChildren_nil_pat (pat : List (List String)) :
    filterChildren [] pat = ([], pat) := rfl

/-- The remaining pattern returned by `filter_by_pattern_inner` is exactly
the remainder of the greedy scan of the pre-order names of the subtree. -/
theorem filterInner_consume : ∀ t (pat : List (List String)),
    (CallNode.filter_by_pattern_inner t pat).2 = consumePattern pat t.names_in_order := by
  refine callNode_ind
    (Q := fun cs => ∀ pat, (filterChildren cs pat).2 = consumePattern pat (namesInOrderList cs))
    ?_ ?_ ?_
  · intro n cs ihQ pat
    cases pat with
    | nil =>
      simp [CallNode.filter_by_pattern_inner, CallNode.names_in_order, consumePattern_nil]
    | cons e rest =>
      simp only [CallNode.filter_by_pattern_inner, CallNode.names_in_order,
        consumePattern_cons, consumeStep]
      by_cases hm : n ∈ e
      · have hd : decide (n ∈ e) = true := decide_eq_true hm
        by_cases hrest : rest = ([] : List (List String))
        · subst hrest
          simp [hd, consumePattern_nil]
          rw [if_pos hm]
          exact consumePattern_nil _
        · simp [hd, hrest, ihQ rest]
          rw [if_pos hm]
      · have hd : decide (n ∈ e) = false := decide_eq_false hm
        simp [hd, ihQ (e :: rest)]
        rw [if_neg hm, apply_ite Prod.snd]
        simp
  · intro pat
    simp [filterChildren_nil_pat, namesInOrderList, consumePattern]
  · intro c cs ihP ihQ pat
    simp only [filterChildren, namesInOrderList, consumePattern_append]
    rw [← ihP pat, ← ihQ (CallNode.filter_by_pattern_inner c pat).2]


/-- The function `filter_by_pattern_inner` keeps a node exactly when the greedy scan of
its subtree consumes at least one pattern element. -/
theorem filterInner_isSome_iff : ∀ t (pat : List (List String)),
    (CallNode.filter_by_pattern_inner t pat).1.isSome = true ↔
      (consumePattern pat t.names_in_order).length < pat.length := by
  refine callNode_ind
    (Q := fun cs => ∀ pat, (filterChildren cs pat).1 ≠ [] ↔
      (consumePattern pat (namesInOrderList cs)).length < pat.length)
    ?_ ?_ ?_
  · intro n cs ihQ pat
    cases pat with
    | nil =>
      simp [CallNode.filter_by_pattern_inner, consumePattern_nil]
    | cons e rest =>
      simp only [CallNode.names_in_order, consumePattern_cons, consumeStep]
      by_cases hm : n ∈ e
      · have hd : decide (n ∈ e) = true := decide_eq_true hm
        rw [if_pos hm]
        by_cases hrest : rest = ([] : List (List String))
        · subst hrest
          simp [CallNode.filter_by_pattern_inner, hd, consumePattern_nil]
        · simp only [CallNode.filter_by_pattern_inner, hd]
          constructor
          · intro _
            have hle := consumePattern_length_le rest (namesInOrderList cs)
            simp only [List.length_cons]
            omega
          · intro _
            simp [hrest]
      · have hd : decide (n ∈ e) = false := decide_eq_false hm
        rw [if_neg hm]
        simp only [CallNode.filter_by_pattern_inner, hd]
        simp only [Bool.false_eq_true, false_and, if_false, Bool.false_or]
        constructor
        · intro hsome
          rw [← ihQ (e :: rest)]
          intro hempty
          simp [hempty] at hsome
        · intro hlt
          have := (ihQ (e :: rest)).mpr hlt
          simp only [← List.isEmpty_iff, Bool.not_eq_true] at this
          simp [List.isEmpty_iff] at this
          simp [this]
  · intro pat
    simp [filterChildren_nil_pat, namesInOrderList, consumePattern]
  · intro c cs ihP ihQ pat
    simp only [filterChildren, namesInOrderList, consumePattern_append]
    rw [← filterInner_consume c pat]
    cases hr1 : (CallNode.filter_by_pattern_inner c pat).1 with
    | some x =>
      have hlt : (CallNode.filter_by_pattern_inner c pat).2.length < pat.length := by
        rw [filterInner_consume c pat]
        exact (ihP pat).mp (by simp [hr1])
      have hle := consumePattern_length_le (CallNode.filter_by_pattern_inner c pat).2
        (namesInOrderList cs)
      constructor
      · intro _
        omega
      · intro _
        simp
    | none =>
      have hnlt : ¬ (CallNode.filter_by_pattern_inner c pat).2.length < pat.length := by
        rw [filterInner_consume c pat, ← ihP pat]
        simp [hr1]
      have heq : (CallNode.filter_by_pattern_inner c pat).2 = pat := by
        refine List.IsSuffix.eq_of_length ?_ ?_
        · rw [filterInner_consume c pat]
          exact consumePattern_suffix pat c.names_in_order
        · have hle : (CallNode.filter_by_pattern_inner c pat).2.length ≤ pat.length := by
            rw [filterInner_consume c pat]
            exact consumePattern_length_le pat c.names_in_order
          omega
      rw [heq]
      exact ihQ pat

/-- C3: on every call tree and non-empty pattern, a successful
`matches_path_pattern_tree` guarantees that `filter_by_pattern` returns a
pruned node, so `generate_call_paths` emits exactly one rendered summary
for that start (its per-start emission is the one-element list holding
the rendered pruned tree). -/
theorem c3_match_implies_filter_some (tree : CallNode) (pattern : List (List String))
    (hne : pattern ≠ [])
    (hm : matches_path_pattern_tree tree pattern = true) :
    ∃ filtered, tree.filter_by_pattern pattern = some filtered ∧
      emitSummary (some pattern) tree = [filtered.render] := by
  have hcons : consumePattern pattern tree.names_in_order = [] :=
    (matches_iff_consume tree pattern).mp hm
  have hlt : (consumePattern pattern tree.names_in_order).length < pattern.length := by
    rw [hcons]
    simpa using List.length_pos.mpr hne
  have hsome := (filterInner_isSome_iff tree pattern).mpr hlt
  cases hf : (CallNode.filter_by_pattern_inner tree pattern).1 with
  | none => rw [hf] at hsome; simp at hsome
  | some filtered =>
    refine ⟨filtered, ?_, ?_⟩
    · rw [CallNode.filter_by_pattern, hf]
    · simp [emitSummary, hm, CallNode.filter_by_pattern, hf]

/-- Witness for C3 at a concrete input: a single-node tree matching a
one-element pattern. -/
theorem c3_match_implies_filter_some_witness :
    ∃ filtered, (CallNode.mk "X" []).filter_by_pattern [["X"]] = some filtered ∧
      emitSummary (some [["X"]]) (CallNode.mk "X" []) = [filtered.render] :=
  c3_match_implies_filter_some (CallNode.mk "X" []) [["X"]] (by simp) rfl

theorem emitSummary_empty_pattern (tree : CallNode) : emitSummary (some []) tree = [] := by
  cases tree with
  | mk n cs => rfl

theorem buildStarts_empty_pattern (fuel : Nat) :
    ∀ starts call_graph function_names rs,
      buildStarts fuel starts call_graph function_names (some []) = some rs → rs = [] := by
  intro starts
  induction starts with
  | nil =>
    intro cg ns rs h
    simp only [buildStarts, Option.some.injEq] at h
    exact h.symm
  | cons s rest ih =>
    intro cg ns rs h
    simp only [buildStarts] at h
    cases h1 : build_call_tree fuel s cg ns [] with
    | none => rw [h1] at h; simp at h
    | some r1 =>
      obtain ⟨tree, vc⟩ := r1
      rw [h1] at h
      simp only at h
      cases h2 : buildStarts fuel rest cg ns (some []) with
      | none => rw [h2] at h; simp at h
      | some rs2 =>
        rw [h2] at h
        simp only [Option.some.injEq] at h
        rw [← h, ih cg ns rs2 h2, emitSummary_empty_pattern]
        rfl

/-- C4: an empty pattern is vacuously matched by every tree, yet
`filter_by_pattern` returns no node for it, so `generate_call_paths`
invoked with an empty pattern emits no summary for any start. -/
theorem c4_empty_pattern_matches_but_emits_nothing :
    (∀ tree, matches_path_pattern_tree tree [] = true) ∧
    (∀ tree : CallNode, tree.filter_by_pattern [] = none) ∧
    (∀ fuel data src_filter results,
      generate_call_paths fuel data src_filter (some []) = some results → results = []) := by
  refine ⟨?_, ?_, ?_⟩
  · intro tree
    rfl
  · intro tree
    cases tree with
    | mk n cs => rfl
  · intro fuel data src results h
    simp only [generate_call_paths] at h
    cases hB : buildStarts fuel (srcFiltered data.function_names src data.all_function_indices)
        data.call_graph data.function_names (some []) with
    | none => rw [hB] at h; simp at h
    | some rs =>
      rw [hB] at h
      simp only [Option.some.injEq] at h
      rw [buildStarts_empty_pattern fuel _ _ _ rs hB] at h
      exact h.symm

/-- Witness for C4 at a concrete input: with the empty pattern,
`generate_call_paths` on a one-function module emits nothing. -/
theorem c4_empty_pattern_matches_but_emits_nothing_witness : ([] : List String) = [] :=
  c4_empty_pattern_matches_but_emits_nothing.2.2 1 nonameData [] [] rfl

/-- The example tree of the pattern-pruning test case in the specification. -/
def specTree : CallNode :=
  CallNode.mk "X"
    [CallNode.mk "A" [CallNode.mk "C" [], CallNode.mk "D" []], CallNode.mk "B" []]

/-- C9: there exist a call tree and a non-empty pattern on which
`matches_path_pattern_tree` fails yet `filter_by_pattern` still returns a
node: the out-of-order pattern X..B..D on the tree X(A(C,D),B).  The
filter alone therefore does not certify a full match, and emission in
`generate_call_paths` — here empty — depends on the preceding matches
check. -/
theorem c9_filter_without_match :
    matches_path_pattern_tree specTree [["X"], ["B"], ["D"]] = false ∧
      specTree.filter_by_pattern [["X"], ["B"], ["D"]] =
        some (CallNode.mk "X" [CallNode.mk "B" []]) ∧
      emitSummary (some [["X"], ["B"], ["D"]]) specTree = [] :=
  ⟨rfl, rfl, rfl⟩

/-- C5 counterexample: id 0 has no entry in the names map of
`nonameData`, yet the chain emitted by `enumerate_call_chains` displays it
as `"unknown"`, not as the synthesized default `"func_0"` the claim
requires for chain strings. -/
theorem c5_counterexample_chain_default_is_unknown :
    enumerate_call_chains 1 nonameData [] [] false = some ["unknown"] ∧
      "unknown" ≠ "func_0" :=
  ⟨rfl, by decide⟩

/-- C5 (amended): a function id with no entry in the names map is
displayed as the synthesized default `"func_<id>"` in tree nodes produced
by `build_call_tree`, but as the literal `"unknown"` in the display-name
sequences from which `enumerate_call_chains` builds its chain strings. -/
theorem c5_amended_default_names :
    (∀ fuel func_idx call_graph function_names visit_counts t vc',
       lookupMap function_names func_idx = none →
       build_call_tree fuel func_idx call_graph function_names visit_counts = some (t, vc') →
       t.name = "func_" ++ toString func_idx) ∧
    (∀ (function_names : List (Nat × String)) (path : List Nat),
       (∀ i ∈ path, lookupMap function_names i = none) →
       pathNames function_names path = path.map (fun _ => "unknown")) := by
  constructor
  · intro fuel f cg ns vc t vc' hn h
    cases fuel with
    | zero => simp [build_call_tree] at h
    | succ fuel =>
      simp only [build_call_tree] at h
      have hname : treeNodeName ns f = "func_" ++ toString f := by
        simp [treeNodeName, hn]
      by_cases hc : (lookupMap vc f).getD 0 ≥ 2
      · rw [if_pos hc] at h
        simp only [Option.some.injEq, Prod.mk.injEq] at h
        rw [← h.1, CallNode.name, hname]
      · rw [if_neg hc] at h
        cases hB : buildChildren (fun c vc0 => build_call_tree fuel c cg ns vc0)
            ((lookupMap cg f).getD []) (updateMap vc f ((lookupMap vc f).getD 0 + 1)) with
        | none => rw [hB] at h; simp at h
        | some r =>
          obtain ⟨children, vc2⟩ := r
          rw [hB] at h
          simp only [Option.some.injEq, Prod.mk.injEq] at h
          rw [← h.1, CallNode.name, hname]
  · intro ns path hmiss
    simp only [pathNames]
    exact List.map_congr_left (fun i hi => by rw [hmiss i hi]; rfl)

/-- Witness for the amended C5 at concrete inputs. -/
theorem c5_amended_default_names_witness :
    (CallNode.mk "func_0" []).name = "func_" ++ toString 0 ∧
      pathNames [] [0] = [0].map (fun _ => "unknown") :=
  ⟨c5_amended_default_names.1 1 0 [] [] [] (CallNode.mk "func_0" []) [(0, 0)] rfl rfl,
    c5_amended_default_names.2 [] [0] (fun _ _ => rfl)⟩

/-! ### Acyclic graphs: chain count equals downward path count -/

/-- The number of distinct downward paths of the graph beginning at a
given id, counting the length-1 path consisting of the id alone.  Paths
are distinguished per call site: edge lists keep duplicates, and parallel
edges give distinct paths.  Fuel-bounded like the traversals; on an
acyclic graph any fuel above the id's rank gives the true count. -/
def downwardPathCount (fuel : Nat) (call_graph : List (Nat × List Nat)) (i : Nat) : Nat :=
  match fuel with
  | 0 => 0
  | fuel + 1 =>
    1 + (((lookupMap call_graph i).getD []).map (downwardPathCount fuel call_graph)).sum

theorem dfsList_count (call_graph : List (Nat × List Nat)) (rank : Nat → Nat)
    (fuelD : Nat)
    (rec : Nat → List Nat → List Nat → Option DfsState)
    (hrec : ∀ c p v, rank c < fuelD → (∀ x, x ∈ v ↔ x ∈ p) → (∀ x ∈ p, rank c < rank x) →
      ∃ rs, rec c p v = some (rs, p, v) ∧
        rs.length = downwardPathCount fuelD call_graph c) :
    ∀ cs p v, (∀ x, x ∈ v ↔ x ∈ p) →
      (∀ c ∈ cs, rank c < fuelD ∧ ∀ x ∈ p, rank c < rank x) →
      ∃ rs, dfsList rec cs p v = some (rs, p, v) ∧
        rs.length = (cs.map (downwardPathCount fuelD call_graph)).sum := by
  intro cs
  induction cs with
  | nil =>
    intro p v _ _
    exact ⟨[], rfl, by simp⟩
  | cons c cs ih =>
    intro p v hiff hcs
    have hcp : c ∉ p := by
      intro hcp0
      exact absurd ((hcs c (List.mem_cons_self c cs)).2 c hcp0) (lt_irrefl _)
    have hcv : c ∉ v := fun hcv0 => hcp ((hiff c).mp hcv0)
    obtain ⟨rs1, h1, hlen1⟩ := hrec c p v (hcs c (List.mem_cons_self c cs)).1 hiff
      (hcs c (List.mem_cons_self c cs)).2
    obtain ⟨rs2, h2, hlen2⟩ := ih p v hiff
      (fun c0 hc0 => hcs c0 (List.mem_cons_of_mem c hc0))
    refine ⟨rs1 ++ rs2, ?_, ?_⟩
    · simp only [dfsList, if_neg hcv, h1, h2]
    · simp [hlen1, hlen2]

theorem dfs_acyclic_count (call_graph : List (Nat × List Nat)) (rank : Nat → Nat)
    (hr : ∀ a b, b ∈ (lookupMap call_graph a).getD [] → rank b < rank a) :
    ∀ fuel func_idx function_names imported_functions current_path visited,
      rank func_idx < fuel →
      (∀ x, x ∈ visited ↔ x ∈ current_path) →
      (∀ x ∈ current_path, rank func_idx < rank x) →
      ∃ rs, dfs fuel func_idx call_graph function_names imported_functions current_path
          visited [] false = some (rs, current_path, visited) ∧
        rs.length = downwardPathCount fuel call_graph func_idx := by
  intro fuel
  induction fuel with
  | zero => intro f ns imp path vis hrk _ _; omega
  | succ fuel ih =>
    intro f ns imp path vis hrk hiff hpath
    have hfp : f ∉ path := fun hfp0 => absurd (hpath f hfp0) (lt_irrefl _)
    have hfv : f ∉ vis := fun hfv0 => hfp ((hiff f).mp hfv0)
    have hiff1 : ∀ x, x ∈ insertSet f vis ↔ x ∈ path ++ [f] := by
      intro x
      rw [mem_insertSet, List.mem_append, List.mem_singleton]
      constructor
      · rintro (rfl | hx)
        · exact Or.inr rfl
        · exact Or.inl ((hiff x).mp hx)
      · rintro (hx | rfl)
        · exact Or.inr ((hiff x).mpr hx)
        · exact Or.inl rfl
    obtain ⟨rsL, hL, hlenL⟩ := dfsList_count call_graph rank fuel
      (fun c p v => dfs fuel c call_graph ns imp p v [] false)
      (fun c p v hc0 hif0 hp0 => ih c ns imp p v hc0 hif0 hp0)
      ((lookupMap call_graph f).getD []) (path ++ [f]) (insertSet f vis)
      hiff1
      (by
        intro c hc
        have hcf : rank c < rank f := hr f c hc
        refine ⟨by omega, ?_⟩
        intro x hx
        rcases List.mem_append.mp hx with hx1 | hx2
        · exact lt_trans hcf (hpath x hx1)
        · rw [List.mem_singleton] at hx2
          rw [hx2]
          exact hcf)
    have hinc : shouldInclude imp [] false f (pathNames ns (path ++ [f])) = true := by
      simp [shouldInclude]
    refine ⟨chainString ns false (path ++ [f]) :: rsL, ?_, ?_⟩
    · simp only [dfs, hL, hinc, if_pos]
      rw [List.dropLast_concat, insertSet_of_not_mem hfv, List.erase_cons_head]
      rfl
    · simp only [List.length_cons, hlenL, downwardPathCount]
      omega

theorem dfsStarts_count (data : CallGraphData) (rank : Nat → Nat) (fuel : Nat)
    (hr : ∀ a b, b ∈ (lookupMap data.call_graph a).getD [] → rank b < rank a) :
    ∀ starts function_names imported_functions,
      (∀ s ∈ starts, rank s < fuel) →
      ∃ rs, dfsStarts fuel starts data.call_graph function_names imported_functions [] false
          = some rs ∧
        rs.length = (starts.map (downwardPathCount fuel data.call_graph)).sum := by
  intro starts
  induction starts with
  | nil => intro ns imp _; exact ⟨[], rfl, by simp⟩
  | cons s rest ih =>
    intro ns imp hf
    obtain ⟨rs1, h1, hlen1⟩ := dfs_acyclic_count data.call_graph rank hr fuel s ns imp [] []
      (hf s (List.mem_cons_self s rest)) (by simp) (by simp)
    obtain ⟨rs2, h2, hlen2⟩ := ih ns imp (fun s0 hs0 => hf s0 (List.mem_cons_of_mem s hs0))
    refine ⟨rs1 ++ rs2, ?_, ?_⟩
    · simp only [dfsStarts, h1, h2]
    · simp [hlen1, hlen2]

/-- C6: on an acyclic call graph — acyclicity given by a rank function
decreasing along call edges — with empty src and dst filters and
`leaves_only` false, the number of chain strings emitted equals, start by
start, the number of distinct downward paths beginning at that start,
counting the length-1 path of the start alone. -/
theorem c6_acyclic_chain_count (data : CallGraphData) (rank : Nat → Nat) (fuel : Nat)
    (hr : ∀ a b, b ∈ (lookupMap data.call_graph a).getD [] → rank b < rank a)
    (hf : ∀ s ∈ data.all_function_indices, rank s < fuel) :
    ∃ results, enumerate_call_chains fuel data [] [] false = some results ∧
      results.length = (data.all_function_indices.map
        (downwardPathCount fuel data.call_graph)).sum := by
  have hstarts : chainStarts data [] false = data.all_function_indices := by
    simp [chainStarts, srcFiltered]
  obtain ⟨rs, hD, hlen⟩ := dfsStarts_count data rank fuel hr data.all_function_indices
    data.function_names data.imported_functions hf
  refine ⟨List.insertionSort (fun a b => a ≤ b) rs, ?_, ?_⟩
  · simp only [enumerate_call_chains, hstarts, hD]
  · rw [List.length_insertionSort]
    exact hlen

/-- A concrete two-function acyclic graph: function 0 calls function 1. -/
def acyclicData : CallGraphData :=
  CallGraphData.mk [] [(0, [1]), (1, [])] [0, 1] [] []

/-- Witness for C6 at a concrete input: the two-function acyclic graph,
ranked by `2 - id`, counted with fuel 3. -/
theorem c6_acyclic_chain_count_witness :
    ∃ results, enumerate_call_chains 3 acyclicData [] [] false = some results ∧
      results.length = (acyclicData.all_function_indices.map
        (downwardPathCount 3 acyclicData.call_graph)).sum := by
  refine c6_acyclic_chain_count acyclicData (fun i => 2 - i) 3 ?_ ?_
  · intro a b hb
    by_cases h0 : (0 : Nat) = a
    · subst h0
      simp [lookupMap] at hb
      subst hb
      decide
    · by_cases h1 : (1 : Nat) = a
      · subst h1
        simp [lookupMap, h0] at hb
      · simp [lookupMap, h0, h1] at hb
  · intro s hs
    simp only [acyclicData] at hs
    rcases List.mem_cons.mp hs with rfl | hs1
    · decide
    · rcases List.mem_cons.mp hs1 with rfl | hs2
      · decide
      · simp at hs2

/-! ### apply_implicit_calls: appending callback edges -/

/-- The name-resolution map `apply_implicit_calls` works with. -/
def resolveName (data : CallGraphData) (name : String) : Option Nat :=
  lookupMap (buildNameToIdx data.function_names) name

/-- C8: `apply_implicit_calls` is not idempotent.  For a pair whose two
names both resolve, each application appends one more import-id →
export-id entry to the import id's edge list, so applying the same pair
twice leaves a duplicate edge; a pair whose import or export name does
not resolve appends nothing. -/
theorem c8_apply_implicit_calls_appends (data : CallGraphData)
    (import_name export_name : String) (imp_idx exp_idx : Nat) :
    (resolveName data import_name = some imp_idx →
     resolveName data export_name = some exp_idx →
     lookupMap (apply_implicit_calls data [(import_name, export_name)]).call_graph imp_idx =
       some (((lookupMap data.call_graph imp_idx).getD []) ++ [exp_idx]) ∧
     lookupMap (apply_implicit_calls
         (apply_implicit_calls data [(import_name, export_name)])
         [(import_name, export_name)]).call_graph imp_idx =
       some (((lookupMap data.call_graph imp_idx).getD []) ++ [exp_idx, exp_idx])) ∧
    (resolveName data import_name = none ∨ resolveName data export_name = none →
     (apply_implicit_calls data [(import_name, export_name)]).call_graph =
       data.call_graph) := by
  constructor
  · intro himp hexp
    have h1 : (apply_implicit_calls data [(import_name, export_name)]).call_graph =
        updateMap data.call_graph imp_idx
          (((lookupMap data.call_graph imp_idx).getD []) ++ [exp_idx]) := by
      simp only [apply_implicit_calls, List.foldl_cons, List.foldl_nil]
      rw [resolveName] at himp hexp
      rw [himp, hexp]
    have hn1 : (apply_implicit_calls data [(import_name, export_name)]).function_names =
        data.function_names := rfl
    constructor
    · rw [h1, lookupMap_updateMap_self]
    · have h2 : (apply_implicit_calls (apply_implicit_calls data [(import_name, export_name)])
          [(import_name, export_name)]).call_graph =
          updateMap (updateMap data.call_graph imp_idx
              (((lookupMap data.call_graph imp_idx).getD []) ++ [exp_idx])) imp_idx
            ((((lookupMap data.call_graph imp_idx).getD []) ++ [exp_idx]) ++ [exp_idx]) := by
        simp only [apply_implicit_calls, List.foldl_cons, List.foldl_nil]
        rw [resolveName] at himp hexp
        rw [himp, hexp]
        simp only [lookupMap_updateMap_self, Option.getD_some]
      rw [h2, lookupMap_updateMap_self]
      simp
  · intro hmiss
    simp only [apply_implicit_calls, List.foldl_cons, List.foldl_nil]
    rcases hmiss with hm | hm
    · rw [resolveName] at hm
      rw [hm]
    · rw [resolveName] at hm
      rw [hm]
      cases lookupMap (buildNameToIdx data.function_names) import_name <;> rfl

/-- A module with one import (id 0, named "imp") and one export (id 1,
named "exp"), used to witness callback-edge application. -/
def callbackData : CallGraphData :=
  CallGraphData.mk [(0, "imp"), (1, "exp")] [(1, [])] [1] [0] [1]

/-- Witness for C8 at a concrete input: applying the pair ("imp","exp")
once appends the edge 0 → 1, applying it twice appends it twice, and a
pair with an unresolvable import name changes nothing. -/
theorem c8_apply_implicit_calls_appends_witness :
    (lookupMap (apply_implicit_calls callbackData [("imp", "exp")]).call_graph 0 =
        some (((lookupMap callbackData.call_graph 0).getD []) ++ [1]) ∧
      lookupMap (apply_implicit_calls (apply_implicit_calls callbackData [("imp", "exp")])
          [("imp", "exp")]).call_graph 0 =
        some (((lookupMap callbackData.call_graph 0).getD []) ++ [1, 1])) ∧
      (apply_implicit_calls callbackData [("missing", "exp")]).call_graph =
        callbackData.call_graph :=
  ⟨(c8_apply_implicit_calls_appends callbackData "imp" "exp" 0 1).1 rfl rfl,
    (c8_apply_implicit_calls_appends callbackData "missing" "exp" 0 1).2 (Or.inl rfl)⟩
